import Mathlib

/-!
Verification development for the resmerge cluster-collection merger.

The definitions below are a shallow embedding of the merge/dedup/filter engine
of the repository: `AggHash` (coding.hpp), the record tokenization and node-id
parsing of `mergeCollections` / `extractBase` (src/fileio.cpp, interface part)
and `loadNodes` (interface implementation).  Machine integers are modelled as
`Nat` with explicit reductions modulo `2^32` (the `Id`/`uint32_t` width) and
`2^64` (the `AccId`/`uint64_t` width) exactly where the C++ arithmetic wraps.
Files are modelled as lists of lines, a line being its list of characters;
`strtok` over the delimiters space/tab/newline is modelled by `tokenize`, and
`strtoul(tok, nullptr, 10)` followed by the implicit truncation to `Id` is
modelled by `parseId`.  The validation level is taken as `VALIDATE >= 2`
(warnings enabled), matching the build that enables the conversion-error skip.
The digest `AggHash::hash()` wraps `std::hash<string>` over the raw bytes of
the three accumulated fields; it is implementation defined, so the engine is
parametrized by an arbitrary digest function `H : AggHash → Nat`, and
`hashModel` is one concrete deterministic stand-in (any function of the three
fields agrees with the real digest on fingerprints with equal field tuples).
-/

/-- Width modulus of the accumulator type `AccId = uint64_t`. -/
def U64 : Nat := 2 ^ 64

/-- Width modulus of the node id type `Id = uint32_t`. -/
def U32 : Nat := 2 ^ 32

/-- Aggregation hash of ids (class `AggHash` of coding.hpp): the three
accumulated fields `m_size`, `m_idsum`, `m_id2sum`, all of type
`AccId = uint64_t`. -/
structure AggHash where
  m_size : Nat
  m_idsum : Nat
  m_id2sum : Nat
deriving DecidableEq, Repr

/-- Method `AggHash::add(Id id)`: `++m_size; m_idsum += id; m_id2sum += id*id`.
The multiplication `id * id` is performed at the 32-bit width of `Id` (hence
the reduction modulo `U32` before the 64-bit accumulation), exactly as in the
C++ source where both operands have type `Id = uint32_t`. -/
def AggHash.add (a : AggHash) (id : Nat) : AggHash :=
  { m_size := (a.m_size + 1) % U64
    m_idsum := (a.m_idsum + id) % U64
    m_id2sum := (a.m_id2sum + id * id % U32) % U64 }

/-- Freshly constructed (or cleared) aggregation hash. -/
def AggHash.init : AggHash := ⟨0, 0, 0⟩

/-- Fingerprint of a list of ids: the `AggHash` accumulated by calling `add`
on every element in order (the per-line accumulation of `mergeCollections`). -/
def aggOf (ids : List Nat) : AggHash := ids.foldl AggHash.add AggHash.init

/-- Concrete deterministic digest standing in for `AggHash::hash()`.  The real
digest hashes the raw bytes of the three fields, hence is some deterministic
function of the field tuple; this model is one such function (an injective
one on in-range field values).  All run-level theorems are parametrized by an
arbitrary digest `H`, and this model only instantiates them. -/
def hashModel (a : AggHash) : Nat :=
  a.m_size + U64 * (a.m_idsum + U64 * a.m_id2sum)

/-- Member delimiters of `mergeCollections` / `extractBase` / `loadNodes`:
`constexpr char mbdelim[] = " \t\n"`. -/
def isDelim (c : Char) : Bool := c = ' ' ∨ c = '\t' ∨ c = '\n'

/-- Tokenizer worker: splits a character list at delimiters, accumulating the
current (reversed) token, producing the list of maximal non-delimiter runs. -/
def tokenizeAux : List Char → List Char → List (List Char)
  | [], cur => if cur.isEmpty then [] else [cur.reverse]
  | c :: rest, cur =>
    if isDelim c then
      if cur.isEmpty then tokenizeAux rest []
      else cur.reverse :: tokenizeAux rest []
    else tokenizeAux rest (c :: cur)

/-- Model of the `strtok(line, mbdelim)` loop: the successive non-empty tokens
of a line. -/
def tokenize (cs : List Char) : List (List Char) := tokenizeAux cs []

/-- Space characters skipped by `strtoul` before the subject sequence
(C `isspace` in the default locale). -/
def isCSpace (c : Char) : Bool :=
  c = ' ' ∨ c = '\t' ∨ c = '\n' ∨ c = '\x0b' ∨ c = '\x0c' ∨ c = '\r'

/-- Numeric value of a decimal digit run. -/
def decVal (ds : List Char) : Nat := ds.foldl (fun a c => a * 10 + (c.toNat - 48)) 0

/-- Model of `strtoul(tok, nullptr, 10)`: skip leading spaces, accept one
optional sign, convert the longest decimal digit run (0 when there is none),
clamp to `ULONG_MAX` on overflow, and negate modulo `2^64` when the sign was
a minus (C17 7.22.1.4: the minus sign negates the converted unsigned value). -/
def strtoul10 (cs : List Char) : Nat :=
  let cs1 := cs.dropWhile isCSpace
  match cs1 with
  | '-' :: r => (U64 - min (decVal (r.takeWhile Char.isDigit)) (U64 - 1)) % U64
  | '+' :: r => min (decVal (r.takeWhile Char.isDigit)) (U64 - 1)
  | r => min (decVal (r.takeWhile Char.isDigit)) (U64 - 1)

/-- Model of `Id nid = strtoul(tok, nullptr, 10)`: the `unsigned long` result
truncated to the 32-bit `Id`. -/
def parseId (t : List Char) : Nat := strtoul10 t % U32

/-- First character test of the conversion-error guard `tok[0] != '0'`. -/
def headNotZero : List Char → Bool
  | [] => true
  | c :: _ => c ≠ '0'

/-- Conversion-error skip of the `VALIDATE >= 2` guard:
`if(!nid && tok[0] != '0') continue;`. -/
def skipTok (t : List Char) : Bool := parseId t = 0 && headNotZero t

/-- Per-token body of the member loop of `mergeCollections`: parse the id,
apply the conversion-error skip, then the node-base filter
`if(nosync || nodebase.count(nid))`; survivors keep their original token text
(appended to `clstr`) paired with the parsed id (pushed to `cnds`/`agghash`). -/
def survivors (nosync : Bool) (base : List Nat) (toks : List (List Char)) :
    List (List Char × Nat) :=
  toks.filterMap fun t =>
    let nid := parseId t
    if skipTok t then none
    else if nosync || base.contains nid then some (t, nid) else none

/-- Comment test `tok[0] == '#'` for the first token of a line. -/
def startsHash : List Char → Bool
  | [] => false
  | c :: _ => c = '#'

/-- Cluster-label test `tok[strlen(tok) - 1] == '>'` for the first token. -/
def lastIsGt (t : List Char) : Bool := t.getLast? = some '>'

/-- Record-level view of one input line: `none` when the line is skipped
before any member is parsed (no tokens, a comment, or a cluster label with
nothing after it), otherwise the survivor list of its member tokens. -/
def candidate (nosync : Bool) (base : List Nat) (line : List Char) :
    Option (List (List Char × Nat)) :=
  match tokenize line with
  | [] => none
  | t0 :: rest =>
    if startsHash t0 then none
    else
      match (if lastIsGt t0 then rest else t0 :: rest) with
      | [] => none
      | b :: bs => some (survivors nosync base (b :: bs))

/-- Rendering of the output cluster string `clstr`: every surviving token's
original text followed by a space, with the final space removed —
equivalently the texts joined by single spaces. -/
def joinSp : List (List Char) → List Char
  | [] => []
  | [t] => t
  | t :: rest => t ++ ' ' :: joinSp rest

/-- Output line written for a retained cluster. -/
def render (sv : List (List Char × Nat)) : List Char := joinSp (sv.map Prod.fst)

/-- Size filter of `mergeCollections`, `extractBase` and `loadNodes`:
`cnds.size() >= cmin && (!cmax || cnds.size() <= cmax)`. -/
def sizeOk (cmin cmax s : Nat) : Bool := cmin ≤ s && (cmax = 0 || s ≤ cmax)

/-- Lookup of the digest bucket, modelling `chashes.find(ch)` on the
`unordered_map<digest, vector<AggHash>>`. -/
def findBucket : List (Nat × List AggHash) → Nat → Option (List AggHash)
  | [], _ => none
  | p :: rest, d => if p.1 = d then some p.2 else findBucket rest d

/-- Update modelling `chashes[ch].push_back(agghash)`: append to the bucket
of an existing digest key, or create the key with a one-element bucket. -/
def updBucket (m : List (Nat × List AggHash)) (d : Nat) (ah : AggHash) :
    List (Nat × List AggHash) :=
  match m with
  | [] => [(d, [ah])]
  | p :: rest => if p.1 = d then (p.1, p.2 ++ [ah]) :: rest else p :: updBucket rest d ah

/-- Insertion of a run of ids into an id set (`unordered_set<Id>::insert` over
a range), modelled as a duplicate-free list in first-insertion order. -/
def insAll (s : List Nat) (xs : List Nat) : List Nat :=
  xs.foldl (fun s x => if s.contains x then s else s ++ [x]) s

/-- Mutable state of one `mergeCollections` run: the fingerprint buckets
`chashes`, the node base set, the cached `nosync` flag, the output cluster
lines written so far, and the filtered-cluster counter `cfltnum`. -/
structure MergeState where
  chashes : List (Nat × List AggHash)
  nodebase : List Nat
  nosync : Bool
  output : List (List Char)
  cfltnum : Nat
deriving DecidableEq, Repr

/-- Fingerprints retained so far: the contents of all digest buckets. -/
def retained (m : List (Nat × List AggHash)) : List AggHash :=
  m.foldr (fun p acc => p.2 ++ acc) []

/-- Processing of one input line inside the per-file loop of
`mergeCollections`: skip comments/labels, filter members by the node base,
drop clusters that became empty (counting them as filtered), apply the size
filter, extend the node base in sync mode, and retain the cluster iff no
previously seen fingerprint in its digest bucket equals its fingerprint under
the full three-field comparison. -/
def processLine (H : AggHash → Nat) (cmin cmax : Nat) (st : MergeState)
    (line : List Char) : MergeState :=
  match candidate st.nosync st.nodebase line with
  | none => st
  | some [] => { st with cfltnum := st.cfltnum + 1 }
  | some sv =>
    if sizeOk cmin cmax sv.length then
      let nb := if st.nosync then st.nodebase else insAll st.nodebase (sv.map Prod.snd)
      let ah := aggOf (sv.map Prod.snd)
      let dup := match findBucket st.chashes (H ah) with
        | none => false
        | some b => b.contains ah
      if dup then { st with nodebase := nb, cfltnum := st.cfltnum + 1 }
      else { st with
        nodebase := nb
        chashes := updBucket st.chashes (H ah) ah
        output := st.output ++ [render sv] }
    else { st with cfltnum := st.cfltnum + 1 }

/-- Per-line body of `loadNodes`: no node-base filter, size filter, then
insertion of the surviving ids into the accumulated unique-id set. -/
def loadLine (cmin cmax : Nat) (nb : List Nat) (line : List Char) : List Nat :=
  match candidate true [] line with
  | none => nb
  | some sv => if sizeOk cmin cmax sv.length then insAll nb (sv.map Prod.snd) else nb

/-- Function `loadNodes`: accumulate the unique node ids of a collection,
applying the size filter (`mergeCollections` calls it on the base collection
with the defaults `cmin = 0`, `cmax = 0`, i.e. unfiltered). -/
def loadNodes (file : List (List Char)) (cmin cmax : Nat) : List Nat :=
  file.foldl (loadLine cmin cmax) []

/-- Initial state of a `mergeCollections` run: the node base loaded from the
base collection (unfiltered), `nosync` when that base is empty, no retained
fingerprints and no output. -/
def initState (fbase : List (List Char)) : MergeState :=
  let nodebase := loadNodes fbase 0 0
  { chashes := [], nodebase := nodebase, nosync := nodebase.isEmpty
    output := [], cfltnum := 0 }

/-- Function `mergeCollections` (interface part of fileio.cpp): process every
line of every input collection in order.  Capacity estimation is omitted: it
only sizes preallocations and cannot affect any of the observable results. -/
def mergeCollections (H : AggHash → Nat) (fbase : List (List Char))
    (files : List (List (List Char))) (cmin cmax : Nat) : MergeState :=
  files.foldl (fun st file => file.foldl (processLine H cmin cmax) st)
    (initState fbase)

/-- Number of unique clusters patched into the output header:
`chashes.size()`, the number of distinct digest keys. -/
def headerClusters (st : MergeState) : Nat := st.chashes.length

/-- Number of nodes patched into the output header: `nodebase.size()`. -/
def headerNodes (st : MergeState) : Nat := st.nodebase.length

/-- Per-line body of `extractBase`: all parsed member tokens are kept (no
node-base filter), then the size filter decides whether the ids join the
accumulated node base. -/
def extractLine (cmin cmax : Nat) (nb : List Nat) (line : List Char) : List Nat :=
  match candidate true [] line with
  | none => nb
  | some sv => if sizeOk cmin cmax sv.length then insAll nb (sv.map Prod.snd) else nb

/-- Function `extractBase`: accumulate one node base over all input
collections, applying only the size filter. -/
def extractBase (files : List (List (List Char))) (cmin cmax : Nat) : List Nat :=
  files.foldl (fun nb file => file.foldl (extractLine cmin cmax) nb) []

/-- Ids of one line accepted by `extractBase` (and `loadNodes`): the surviving
member ids when the cluster passes the size filter, nothing otherwise. -/
def lineAccepted (cmin cmax : Nat) (line : List Char) : List Nat :=
  match candidate true [] line with
  | none => []
  | some sv => if sizeOk cmin cmax sv.length then sv.map Prod.snd else []

/-- Ids accepted by `extractBase`, with repetitions: every surviving member id
of every line whose cluster passes the size filter. -/
def extractAccepted (files : List (List (List Char))) (cmin cmax : Nat) : List Nat :=
  files.flatMap fun file => file.flatMap (lineAccepted cmin cmax)

/-- Header of the `extractBase` output after patching: the literal
`Clusters: 1` of its header prefix and the final node count. -/
def extractHeader (files : List (List (List Char))) (cmin cmax : Nat) : Nat × Nat :=
  (1, (extractBase files cmin cmax).length)

/-- Parsed surviving ids of one line (empty for skipped lines). -/
def lineIds (nosync : Bool) (base : List Nat) (line : List Char) : List Nat :=
  ((candidate nosync base line).getD []).map Prod.snd

/-- Fingerprint of a survivor list. -/
def svFp (sv : List (List Char × Nat)) : AggHash := aggOf (sv.map Prod.snd)

/-- Token texts free of member delimiters. -/
def delimFree (t : List Char) : Prop := ∀ c ∈ t, isDelim c = false

/-- Well-formedness of the digest-bucket map: digest keys are unique (it is an
`unordered_map`), every bucket entry digests to its key, and buckets are
non-empty and duplicate-free (entries are appended only when absent). -/
def StWF (m : List (Nat × List AggHash)) (H : AggHash → Nat) : Prop :=
  (m.map Prod.fst).Nodup ∧ ∀ p ∈ m, (∀ f ∈ p.2, H f = p.1) ∧ p.2 ≠ [] ∧ p.2.Nodup

/-- Properties of a token that survived the member loop: non-empty, free of
delimiters, not hit by the conversion-error skip, and passing the node-base
filter. -/
def GoodTok (nosync : Bool) (base : List Nat) (t : List Char) : Prop :=
  t ≠ [] ∧ delimFree t ∧ skipTok t = false ∧ (nosync = true ∨ parseId t ∈ base)

/-- Properties of the survivor list of a retained output line: non-empty, all
tokens good with their parsed ids, and passing the size filter. -/
def GoodSv (nosync : Bool) (base : List Nat) (cmin cmax : Nat)
    (sv : List (List Char × Nat)) : Prop :=
  sv ≠ [] ∧ (∀ p ∈ sv, GoodTok nosync base p.1 ∧ p.2 = parseId p.1) ∧
    sizeOk cmin cmax sv.length = true

/-- Output-side invariant of a merge run: every output line is the rendering
of a good survivor list, the fingerprints of the output lines are pairwise
distinct, each is retained in the bucket map, and the retained fingerprints
are exactly as many as the output lines. -/
def OutInv (nosync : Bool) (base : List Nat) (cmin cmax : Nat)
    (st : MergeState) : Prop :=
  ∃ svs : List (List (List Char × Nat)), st.output = svs.map render ∧
    (∀ sv ∈ svs, GoodSv nosync base cmin cmax sv) ∧
    (svs.map svFp).Nodup ∧
    (∀ sv ∈ svs, svFp sv ∈ retained st.chashes) ∧
    (retained st.chashes).length = svs.length

/-- Full invariant of a `mergeCollections` run with node base `base` and sync
flag `nosync`. -/
def RunInv (H : AggHash → Nat) (nosync : Bool) (base : List Nat) (cmin cmax : Nat)
    (st : MergeState) : Prop :=
  st.nosync = nosync ∧ st.nodebase = base ∧ StWF st.chashes H ∧
    OutInv nosync base cmin cmax st

/-- First token of a line (used to state when an output line would be
re-parsed as carrying a cluster label). -/
def firstTok (l : List Char) : List Char := (tokenize l).headD []

example : tokenize "1 4  6\t7".data = [['1'], ['4'], ['6'], ['7']] := by decide
example : parseId "12>".data = 12 := by decide
example : parseId "-1".data = 4294967295 := by decide
example : parseId "abc".data = 0 := by decide
example : skipTok "abc".data = true := by decide
example : skipTok "0x".data = false := by decide

/-! Tokenizer lemmas. -/

theorem tokenizeAux_mem {cs cur : List Char} {t : List Char}
    (hcur : ∀ c ∈ cur, isDelim c = false) (ht : t ∈ tokenizeAux cs cur) :
    t ≠ [] ∧ delimFree t := by
  induction cs generalizing cur with
  | nil =>
    simp only [tokenizeAux] at ht
    split at ht
    · simp at ht
    · next hne =>
      simp only [List.mem_singleton] at ht
      subst ht
      refine ⟨?_, ?_⟩
      · simp only [ne_eq, List.reverse_eq_nil_iff]
        intro h
        simp [h] at hne
      · intro c hc
        exact hcur c (List.mem_reverse.mp hc)
  | cons c rest ih =>
    simp only [tokenizeAux] at ht
    split at ht
    · split at ht
      · exact ih (by simp) ht
      · next hne =>
        rcases List.mem_cons.mp ht with h | h
        · subst h
          refine ⟨?_, fun c hc => hcur c (List.mem_reverse.mp hc)⟩
          simp only [ne_eq, List.reverse_eq_nil_iff]
          intro h
          simp [h] at hne
        · exact ih (by simp) h
    · next hcd =>
      refine ih ?_ ht
      intro d hd
      rcases List.mem_cons.mp hd with h | h
      · subst h; exact eq_false_of_ne_true hcd
      · exact hcur d h

theorem tokenize_mem {cs : List Char} {t : List Char} (ht : t ∈ tokenize cs) :
    t ≠ [] ∧ delimFree t :=
  tokenizeAux_mem (by simp) ht

theorem tokenizeAux_whole {t : List Char} (cur : List Char) (hd : delimFree t) :
    tokenizeAux t cur =
      if (cur.reverse ++ t).isEmpty then [] else [cur.reverse ++ t] := by
  induction t generalizing cur with
  | nil =>
    simp only [tokenizeAux, List.append_nil]
    rcases cur with _ | ⟨c, cur⟩ <;> simp
  | cons c t ih =>
    have hc : isDelim c = false := hd c (by simp)
    simp only [tokenizeAux, hc, Bool.false_eq_true, if_false]
    rw [ih (c :: cur) (fun d hdm => hd d (by simp [hdm]))]
    simp

theorem tokenizeAux_break {t : List Char} (cur : List Char) (cs : List Char)
    (hd : delimFree t) (hne : cur.reverse ++ t ≠ []) :
    tokenizeAux (t ++ ' ' :: cs) cur =
      (cur.reverse ++ t) :: tokenizeAux cs [] := by
  induction t generalizing cur with
  | nil =>
    simp only [List.append_nil] at hne ⊢
    have hcur : cur.isEmpty = false := by
      rcases cur with _ | _ <;> simp_all
    simp [tokenizeAux, isDelim, hcur]
  | cons c t ih =>
    have hc : isDelim c = false := hd c (by simp)
    simp only [List.cons_append, tokenizeAux, hc, Bool.false_eq_true, if_false,
      List.append_eq]
    rw [ih (c :: cur) (fun d hdm => hd d (by simp [hdm])) (by simp)]
    simp

theorem tokenize_joinSp {ts : List (List Char)}
    (h : ∀ t ∈ ts, t ≠ [] ∧ delimFree t) : tokenize (joinSp ts) = ts := by
  induction ts with
  | nil => rfl
  | cons t rest ih =>
    rcases rest with _ | ⟨t2, rest⟩
    · have := h t (by simp)
      simp only [joinSp, tokenize]
      rw [tokenizeAux_whole [] this.2]
      simp [List.isEmpty_iff, this.1]
    · show tokenize (t ++ ' ' :: joinSp (t2 :: rest)) = _
      unfold tokenize
      rw [tokenizeAux_break [] _ (h t (by simp)).2 (by simp [(h t (by simp)).1])]
      simp only [List.reverse_nil, List.nil_append]
      congr 1
      exact ih fun x hx => h x (by simp [hx])

/-! Survivor lemmas. -/

theorem survivors_mem {nosync : Bool} {base : List Nat}
    {toks : List (List Char)} {p : List Char × Nat}
    (hp : p ∈ survivors nosync base toks) :
    p.1 ∈ toks ∧ skipTok p.1 = false ∧ p.2 = parseId p.1 ∧
      (nosync = true ∨ p.2 ∈ base) := by
  simp only [survivors, List.mem_filterMap] at hp
  obtain ⟨t, ht, hf⟩ := hp
  by_cases hs : skipTok t = true
  · simp [hs] at hf
  · simp only [hs, Bool.false_eq_true, if_false] at hf
    split at hf
    · next hkeep =>
      cases hf
      refine ⟨ht, eq_false_of_ne_true hs, rfl, ?_⟩
      rcases Bool.or_eq_true_iff.mp hkeep with h | h
      · exact Or.inl h
      · exact Or.inr (by simpa [List.contains, List.elem_eq_mem] using h)
    · cases hf

theorem survivors_all {nosync : Bool} {base : List Nat} {toks : List (List Char)}
    (h : ∀ t ∈ toks, skipTok t = false ∧ (nosync = true ∨ parseId t ∈ base)) :
    survivors nosync base toks = toks.map fun t => (t, parseId t) := by
  induction toks with
  | nil => rfl
  | cons t rest ih =>
    have ht := h t (by simp)
    have hkeep : (nosync || base.contains (parseId t)) = true := by
      rcases ht.2 with hh | hh
      · simp [hh]
      · simp [List.contains, List.elem_eq_mem, hh]
    simp only [survivors, List.filterMap_cons, ht.1, Bool.false_eq_true, if_false, hkeep,
      if_true, List.map_cons]
    rw [← survivors]
    rw [ih fun x hx => h x (by simp [hx])]

theorem survivors_skip_mid {nosync : Bool} {base : List Nat}
    {pre post : List (List Char)} {t : List Char} (hs : skipTok t = true) :
    survivors nosync base (pre ++ t :: post) = survivors nosync base (pre ++ post) := by
  simp only [survivors, List.filterMap_append, List.filterMap_cons, hs, if_true]

theorem survivors_base {base : List Nat} {toks : List (List Char)}
    {p : List Char × Nat} (hp : p ∈ survivors false base toks) : p.2 ∈ base := by
  rcases (survivors_mem hp).2.2.2 with h | h
  · cases h
  · exact h

/-! Fingerprint accumulation lemmas. -/

theorem U64_pos : 0 < U64 := by decide

theorem foldl_add_spec (ids : List Nat) (a : AggHash)
    (h1 : a.m_size < U64) (h2 : a.m_idsum < U64) (h3 : a.m_id2sum < U64) :
    ids.foldl AggHash.add a =
      ⟨(a.m_size + ids.length) % U64, (a.m_idsum + ids.sum) % U64,
        (a.m_id2sum + (ids.map fun i => i * i % U32).sum) % U64⟩ := by
  induction ids generalizing a with
  | nil =>
    cases a
    simp_all [Nat.mod_eq_of_lt]
  | cons i ids ih =>
    rw [List.foldl_cons,
      ih (a.add i) (Nat.mod_lt _ U64_pos) (Nat.mod_lt _ U64_pos) (Nat.mod_lt _ U64_pos)]
    simp only [AggHash.add, List.length_cons, List.sum_cons, List.map_cons]
    congr 1 <;> rw [Nat.mod_add_mod] <;> congr 1 <;> omega

theorem aggOf_spec (ids : List Nat) :
    aggOf ids =
      ⟨ids.length % U64, ids.sum % U64, (ids.map fun i => i * i % U32).sum % U64⟩ := by
  have := foldl_add_spec ids AggHash.init (by decide) (by decide) (by decide)
  simpa [aggOf, AggHash.init] using this

theorem aggOf_perm {l1 l2 : List Nat} (h : l1.Perm l2) : aggOf l1 = aggOf l2 := by
  rw [aggOf_spec, aggOf_spec, h.length_eq, h.sum_eq, (h.map fun i => i * i % U32).sum_eq]

/-! Bucket map lemmas. -/

theorem retained_cons (p : Nat × List AggHash) (m : List (Nat × List AggHash)) :
    retained (p :: m) = p.2 ++ retained m := rfl

theorem mem_retained {m : List (Nat × List AggHash)} {ah : AggHash} :
    ah ∈ retained m ↔ ∃ p ∈ m, ah ∈ p.2 := by
  induction m with
  | nil => simp [retained]
  | cons p rest ih => simp [retained_cons, ih]

theorem findBucket_some {m : List (Nat × List AggHash)} {d : Nat} {b : List AggHash}
    (h : findBucket m d = some b) : (d, b) ∈ m := by
  induction m with
  | nil => cases h
  | cons p rest ih =>
    simp only [findBucket] at h
    split at h
    · next he =>
      cases h
      exact List.mem_cons.mpr (Or.inl (by simp [← he]))
    · exact List.mem_cons_of_mem _ (ih h)

theorem findBucket_of_mem {m : List (Nat × List AggHash)} {d : Nat} {b : List AggHash}
    (hnd : (m.map Prod.fst).Nodup) (h : (d, b) ∈ m) : findBucket m d = some b := by
  induction m with
  | nil => cases h
  | cons p rest ih =>
    simp only [List.map_cons, List.nodup_cons] at hnd
    rcases List.mem_cons.mp h with he | hm
    · simp [findBucket, ← he]
    · have hne : p.1 ≠ d := by
        intro hpd
        exact hnd.1 (hpd ▸ List.mem_map.mpr ⟨(d, b), hm, rfl⟩)
      simp only [findBucket, hne, if_false]
      exact ih hnd.2 hm

theorem mem_retained_updBucket {m : List (Nat × List AggHash)} {d : Nat}
    {ah x : AggHash} :
    x ∈ retained (updBucket m d ah) ↔ x ∈ retained m ∨ x = ah := by
  induction m with
  | nil => simp [updBucket, retained]
  | cons p rest ih =>
    simp only [updBucket]
    split
    · simp only [retained_cons, List.mem_append, List.mem_singleton]
      tauto
    · simp only [retained_cons, List.mem_append, ih]
      tauto

theorem length_retained_updBucket (m : List (Nat × List AggHash)) (d : Nat)
    (ah : AggHash) :
    (retained (updBucket m d ah)).length = (retained m).length + 1 := by
  induction m with
  | nil => simp [updBucket, retained]
  | cons p rest ih =>
    simp only [updBucket]
    split
    · simp only [retained_cons, List.length_append, List.length_append]
      simp
      omega
    · simp only [retained_cons, List.length_append, ih]
      omega

theorem keys_updBucket_of_mem {m : List (Nat × List AggHash)} {d : Nat}
    (ah : AggHash) (h : d ∈ m.map Prod.fst) :
    (updBucket m d ah).map Prod.fst = m.map Prod.fst := by
  induction m with
  | nil => simp at h
  | cons p rest ih =>
    simp only [updBucket]
    split
    · simp
    · next hne =>
      simp only [List.map_cons] at h ⊢
      rcases List.mem_cons.mp h with he | hm
      · exact absurd he.symm hne
      · rw [ih hm]

theorem keys_updBucket_of_not_mem {m : List (Nat × List AggHash)} {d : Nat}
    (ah : AggHash) (h : d ∉ m.map Prod.fst) :
    (updBucket m d ah).map Prod.fst = m.map Prod.fst ++ [d] := by
  induction m with
  | nil => simp [updBucket]
  | cons p rest ih =>
    simp only [List.map_cons, List.mem_cons] at h
    push_neg at h
    simp only [updBucket]
    split
    · next he => exact absurd he h.1.symm
    · simp only [List.map_cons, List.cons_append]
      rw [ih h.2]

theorem length_updBucket_of_mem {m : List (Nat × List AggHash)} {d : Nat}
    (ah : AggHash) (h : d ∈ m.map Prod.fst) :
    (updBucket m d ah).length = m.length := by
  have := @keys_updBucket_of_mem m d ah h
  have h1 : ((updBucket m d ah).map Prod.fst).length = (m.map Prod.fst).length := by
    rw [this]
  simpa using h1

theorem length_updBucket_of_not_mem {m : List (Nat × List AggHash)} {d : Nat}
    (ah : AggHash) (h : d ∉ m.map Prod.fst) :
    (updBucket m d ah).length = m.length + 1 := by
  have := @keys_updBucket_of_not_mem m d ah h
  have h1 : ((updBucket m d ah).map Prod.fst).length = (m.map Prod.fst).length + 1 := by
    rw [this]; simp
  simpa using h1

theorem updBucket_buckets {m : List (Nat × List AggHash)} {H : AggHash → Nat}
    {ah : AggHash}
    (hb : ∀ p ∈ m, (∀ f ∈ p.2, H f = p.1) ∧ p.2 ≠ [] ∧ p.2.Nodup)
    (hnew : ah ∉ retained m) :
    ∀ p ∈ updBucket m (H ah) ah, (∀ f ∈ p.2, H f = p.1) ∧ p.2 ≠ [] ∧ p.2.Nodup := by
  induction m with
  | nil =>
    intro p hp
    simp only [updBucket, List.mem_singleton] at hp
    subst hp
    exact ⟨by simp, by simp, by simp⟩
  | cons q rest ih =>
    intro p hp
    simp only [updBucket] at hp
    split at hp
    · next he =>
      rcases List.mem_cons.mp hp with hpe | hpm
      · subst hpe
        have hq := hb q (by simp)
        have hnq : ah ∉ q.2 := fun hmem => hnew (mem_retained.mpr ⟨q, by simp, hmem⟩)
        refine ⟨?_, by simp, ?_⟩
        · intro f hf
          rcases List.mem_append.mp hf with hf | hf
          · exact hq.1 f hf
          · simp only [List.mem_singleton] at hf
            subst hf
            exact he.symm
        · rw [List.nodup_append]
          refine ⟨hq.2.2, by simp, ?_⟩
          intro x hx hx2
          simp only [List.mem_singleton] at hx2
          subst hx2
          exact hnq hx
      · exact hb p (List.mem_cons_of_mem _ hpm)
    · rcases List.mem_cons.mp hp with hpe | hpm
      · subst hpe
        exact hb p (by simp)
      · refine ih (fun r hr => hb r (List.mem_cons_of_mem _ hr)) ?_ p hpm
        intro hmem
        obtain ⟨r, hr, hrm⟩ := mem_retained.mp hmem
        exact hnew (mem_retained.mpr ⟨r, List.mem_cons_of_mem _ hr, hrm⟩)

theorem StWF_updBucket {m : List (Nat × List AggHash)} {H : AggHash → Nat}
    {ah : AggHash} (hwf : StWF m H) (hnew : ah ∉ retained m) :
    StWF (updBucket m (H ah) ah) H := by
  obtain ⟨hnd, hb⟩ := hwf
  refine ⟨?_, updBucket_buckets hb hnew⟩
  by_cases hk : H ah ∈ m.map Prod.fst
  · rw [keys_updBucket_of_mem ah hk]
    exact hnd
  · rw [keys_updBucket_of_not_mem ah hk]
    rw [List.nodup_append]
    refine ⟨hnd, by simp, ?_⟩
    intro x hx hx2
    simp only [List.mem_singleton] at hx2
    subst hx2
    exact hk hx

theorem dup_eq_mem_retained {m : List (Nat × List AggHash)} {H : AggHash → Nat}
    {ah : AggHash} (hwf : StWF m H) :
    (match findBucket m (H ah) with
      | none => false
      | some b => b.contains ah) = true ↔ ah ∈ retained m := by
  constructor
  · intro h
    cases hb : findBucket m (H ah) with
    | none => rw [hb] at h; cases h
    | some b =>
      rw [hb] at h
      have hmem : ah ∈ b := by simpa [List.contains, List.elem_eq_mem] using h
      exact mem_retained.mpr ⟨(H ah, b), findBucket_some hb, hmem⟩
  · intro h
    obtain ⟨p, hp, hmem⟩ := mem_retained.mp h
    have hd : H ah = p.1 := (hwf.2 p hp).1 ah hmem
    have : findBucket m (H ah) = some p.2 := by
      rw [hd]
      exact findBucket_of_mem hwf.1 (by simpa using hp)
    rw [this]
    simpa [List.contains, List.elem_eq_mem] using hmem

/-! Node base insertion lemmas. -/

theorem mem_insAll {s xs : List Nat} {x : Nat} :
    x ∈ insAll s xs ↔ x ∈ s ∨ x ∈ xs := by
  induction xs generalizing s with
  | nil => simp [insAll]
  | cons y ys ih =>
    show x ∈ insAll (if s.contains y then s else s ++ [y]) ys ↔ _
    by_cases hy : s.contains y = true
    · rw [if_pos hy, ih]
      have hmem : y ∈ s := by simpa [List.contains, List.elem_eq_mem] using hy
      constructor
      · rintro (h | h)
        exacts [Or.inl h, Or.inr (List.mem_cons_of_mem _ h)]
      · rintro (h | h)
        · exact Or.inl h
        · rcases List.mem_cons.mp h with rfl | h
          exacts [Or.inl hmem, Or.inr h]
    · rw [if_neg hy, ih]
      simp only [List.mem_append, List.mem_singleton, List.mem_cons]
      tauto

theorem insAll_eq_self {s xs : List Nat} (h : ∀ x ∈ xs, x ∈ s) : insAll s xs = s := by
  induction xs with
  | nil => rfl
  | cons y ys ih =>
    show insAll (if s.contains y then s else s ++ [y]) ys = s
    have hy : s.contains y = true := by
      simp [List.contains, List.elem_eq_mem, h y (by simp)]
    rw [if_pos hy]
    exact ih fun x hx => h x (by simp [hx])

theorem insAll_nodup {s xs : List Nat} (h : s.Nodup) : (insAll s xs).Nodup := by
  induction xs generalizing s with
  | nil => exact h
  | cons y ys ih =>
    show (insAll (if s.contains y then s else s ++ [y]) ys).Nodup
    by_cases hy : s.contains y = true
    · rw [if_pos hy]
      exact ih h
    · rw [if_neg hy]
      refine ih ?_
      rw [List.nodup_append]
      refine ⟨h, by simp, ?_⟩
      intro x hx hx2
      simp only [List.mem_singleton] at hx2
      subst hx2
      exact hy (by simpa [List.contains, List.elem_eq_mem] using hx)

/-! Candidate lemmas. -/

theorem candidate_eq_survivors {nosync : Bool} {base : List Nat} {line : List Char}
    {sv : List (List Char × Nat)} (hc : candidate nosync base line = some sv) :
    ∃ body, body ≠ [] ∧ (∀ t ∈ body, t ∈ tokenize line) ∧
      sv = survivors nosync base body := by
  unfold candidate at hc
  rcases htok : tokenize line with _ | ⟨t0, rest⟩ <;> rw [htok] at hc <;>
    simp only [] at hc
  · cases hc
  · by_cases hh : startsHash t0 = true
    · rw [if_pos hh] at hc
      cases hc
    · rw [if_neg hh] at hc
      by_cases hl : lastIsGt t0 = true
      · rw [if_pos hl] at hc
        rcases rest with _ | ⟨b, bs⟩
        · cases hc
        · have hc2 : survivors nosync base (b :: bs) = sv := by
            injection hc
          exact ⟨b :: bs, by simp, fun t ht => List.mem_cons_of_mem _ ht, hc2.symm⟩
      · rw [if_neg hl] at hc
        have hc2 : survivors nosync base (t0 :: rest) = sv := by
          injection hc
        exact ⟨t0 :: rest, by simp, fun t ht => ht, hc2.symm⟩

theorem candidate_good {nosync : Bool} {base : List Nat} {line : List Char}
    {sv : List (List Char × Nat)} (hc : candidate nosync base line = some sv) :
    ∀ p ∈ sv, GoodTok nosync base p.1 ∧ p.2 = parseId p.1 := by
  obtain ⟨body, _, hbody, rfl⟩ := candidate_eq_survivors hc
  intro p hp
  obtain ⟨ht, hskip, hid, hbase⟩ := survivors_mem hp
  have htok := tokenize_mem (hbody p.1 ht)
  exact ⟨⟨htok.1, htok.2, hskip, hid ▸ hbase⟩, hid⟩

/-! Characterization of one processing step. -/

theorem processLine_of_none {H : AggHash → Nat} {cmin cmax : Nat} {st : MergeState}
    {line : List Char} (hc : candidate st.nosync st.nodebase line = none) :
    processLine H cmin cmax st line = st := by
  simp [processLine, hc]

theorem processLine_of_empty {H : AggHash → Nat} {cmin cmax : Nat} {st : MergeState}
    {line : List Char} (hc : candidate st.nosync st.nodebase line = some []) :
    processLine H cmin cmax st line = { st with cfltnum := st.cfltnum + 1 } := by
  simp [processLine, hc]

theorem processLine_of_small {H : AggHash → Nat} {cmin cmax : Nat} {st : MergeState}
    {line : List Char} {sv : List (List Char × Nat)}
    (hc : candidate st.nosync st.nodebase line = some sv) (hsv : sv ≠ [])
    (hsz : sizeOk cmin cmax sv.length = false) :
    processLine H cmin cmax st line = { st with cfltnum := st.cfltnum + 1 } := by
  rcases sv with _ | ⟨p, rest⟩
  · exact absurd rfl hsv
  simp only [List.length_cons] at hsz
  simp [processLine, hc, hsz]

theorem processLine_of_dup {H : AggHash → Nat} {cmin cmax : Nat} {st : MergeState}
    {line : List Char} {sv : List (List Char × Nat)}
    (hwf : StWF st.chashes H)
    (hc : candidate st.nosync st.nodebase line = some sv) (hsv : sv ≠ [])
    (hsz : sizeOk cmin cmax sv.length = true)
    (hdup : svFp sv ∈ retained st.chashes) :
    processLine H cmin cmax st line =
      { st with
        nodebase := if st.nosync then st.nodebase
          else insAll st.nodebase (sv.map Prod.snd)
        cfltnum := st.cfltnum + 1 } := by
  rcases sv with _ | ⟨p, rest⟩
  · exact absurd rfl hsv
  have hd := (@dup_eq_mem_retained st.chashes H (svFp (p :: rest)) hwf).mpr hdup
  simp only [svFp, List.map_cons, List.contains, List.elem_eq_mem] at hd
  simp only [List.length_cons] at hsz
  simp [processLine, hc, hsz, hd]

theorem processLine_of_write {H : AggHash → Nat} {cmin cmax : Nat} {st : MergeState}
    {line : List Char} {sv : List (List Char × Nat)}
    (hwf : StWF st.chashes H)
    (hc : candidate st.nosync st.nodebase line = some sv) (hsv : sv ≠ [])
    (hsz : sizeOk cmin cmax sv.length = true)
    (hnew : svFp sv ∉ retained st.chashes) :
    processLine H cmin cmax st line =
      { st with
        nodebase := if st.nosync then st.nodebase
          else insAll st.nodebase (sv.map Prod.snd)
        chashes := updBucket st.chashes (H (svFp sv)) (svFp sv)
        output := st.output ++ [render sv] } := by
  rcases sv with _ | ⟨p, rest⟩
  · exact absurd rfl hsv
  have hd : (match findBucket st.chashes (H (svFp (p :: rest))) with
      | none => false
      | some b => b.contains (svFp (p :: rest))) = false := by
    rw [← Bool.not_eq_true]
    intro hcontra
    exact hnew ((dup_eq_mem_retained hwf).mp hcontra)
  simp only [svFp, List.map_cons, List.contains, List.elem_eq_mem] at hd
  simp only [List.length_cons] at hsz
  simp [processLine, hc, hsz, hd, svFp]

/-! Run invariant. -/

theorem RunInv_initState (H : AggHash → Nat) (fbase : List (List Char))
    (cmin cmax : Nat) :
    RunInv H (loadNodes fbase 0 0).isEmpty (loadNodes fbase 0 0) cmin cmax
      (initState fbase) := by
  refine ⟨rfl, rfl, ⟨by simp [initState], ?_⟩, [], rfl, by simp, by simp, by simp, rfl⟩
  intro p hp
  simp [initState] at hp

theorem RunInv_processLine {H : AggHash → Nat} {nosync : Bool} {base : List Nat}
    {cmin cmax : Nat} {st : MergeState} (line : List Char)
    (h : RunInv H nosync base cmin cmax st) :
    RunInv H nosync base cmin cmax (processLine H cmin cmax st line) := by
  obtain ⟨hns, hnb, hwf, svs, hout, hgood, hnd, hret, hlen⟩ := h
  rcases hc : candidate st.nosync st.nodebase line with _ | sv
  · rw [processLine_of_none hc]
    exact ⟨hns, hnb, hwf, svs, hout, hgood, hnd, hret, hlen⟩
  rcases sv with _ | ⟨p, rest⟩
  · rw [processLine_of_empty hc]
    exact ⟨hns, hnb, hwf, svs, hout, hgood, hnd, hret, hlen⟩
  have hbase' : (if st.nosync then st.nodebase
      else insAll st.nodebase ((p :: rest).map Prod.snd)) = base := by
    by_cases hsy : st.nosync = true
    · rw [if_pos hsy]
      exact hnb
    · rw [if_neg hsy, hnb]
      refine insAll_eq_self ?_
      intro x hx
      obtain ⟨q, hq, rfl⟩ := List.mem_map.mp hx
      have hg := candidate_good hc q hq
      rcases hg.1.2.2.2 with hcon | hmem
      · exact absurd hcon hsy
      · rw [hg.2, ← hnb]
        exact hmem
  by_cases hsz : sizeOk cmin cmax (p :: rest).length = true
  · by_cases hdup : svFp (p :: rest) ∈ retained st.chashes
    · rw [processLine_of_dup hwf hc (by simp) hsz hdup]
      exact ⟨hns, hbase', hwf, svs, hout, hgood, hnd, hret, hlen⟩
    · rw [processLine_of_write hwf hc (by simp) hsz hdup]
      refine ⟨hns, hbase', StWF_updBucket hwf hdup, svs ++ [p :: rest], ?_, ?_, ?_, ?_, ?_⟩
      · simp [hout]
      · intro sv hsv
        rcases List.mem_append.mp hsv with hmm | hmm
        · exact hgood sv hmm
        · simp only [List.mem_singleton] at hmm
          subst hmm
          refine ⟨by simp, ?_, hsz⟩
          intro q hq
          have hg := candidate_good hc q hq
          rw [hns, hnb] at hg
          exact hg
      · rw [List.map_append, List.nodup_append]
        refine ⟨hnd, by simp, ?_⟩
        intro x hx hx2
        simp only [List.map_cons, List.map_nil, List.mem_singleton] at hx2
        subst hx2
        obtain ⟨sv2, hsv2, hfp⟩ := List.mem_map.mp hx
        exact hdup (hfp ▸ hret sv2 hsv2)
      · intro sv hsv
        rcases List.mem_append.mp hsv with hmm | hmm
        · exact mem_retained_updBucket.mpr (Or.inl (hret sv hmm))
        · simp only [List.mem_singleton] at hmm
          subst hmm
          exact mem_retained_updBucket.mpr (Or.inr rfl)
      · rw [length_retained_updBucket]
        simp [hlen]
  · rw [processLine_of_small hc (by simp) (by simpa using hsz)]
    exact ⟨hns, hnb, hwf, svs, hout, hgood, hnd, hret, hlen⟩

theorem RunInv_foldl {H : AggHash → Nat} {nosync : Bool} {base : List Nat}
    {cmin cmax : Nat} {st : MergeState}
    (h : RunInv H nosync base cmin cmax st) (lines : List (List Char)) :
    RunInv H nosync base cmin cmax (lines.foldl (processLine H cmin cmax) st) := by
  induction lines generalizing st with
  | nil => exact h
  | cons l ls ih => exact ih (RunInv_processLine l h)

theorem RunInv_merge (H : AggHash → Nat) (fbase : List (List Char))
    (files : List (List (List Char))) (cmin cmax : Nat) :
    RunInv H (loadNodes fbase 0 0).isEmpty (loadNodes fbase 0 0) cmin cmax
      (mergeCollections H fbase files cmin cmax) := by
  unfold mergeCollections
  have h0 := RunInv_initState H fbase cmin cmax
  revert h0
  generalize initState fbase = st
  intro h0
  induction files generalizing st with
  | nil => exact h0
  | cons f fs ih => exact ih _ (RunInv_foldl h0 f)

/-! Re-reading an output line. -/

theorem skipTok_of_hash (r : List Char) : skipTok ('#' :: r) = true := rfl

theorem startsHash_false_of_kept {t : List Char} (h : skipTok t = false) :
    startsHash t = false := by
  rcases t with _ | ⟨c, r⟩
  · rfl
  · by_cases hcc : c = '#'
    · subst hcc
      rw [skipTok_of_hash] at h
      cases h
    · simp [startsHash, hcc]

theorem candidate_render {nosync : Bool} {base : List Nat} {cmin cmax : Nat}
    {sv : List (List Char × Nat)} (hg : GoodSv nosync base cmin cmax sv)
    (hgt : lastIsGt (sv.headD ([], 0)).1 = false) :
    candidate nosync base (render sv) = some sv := by
  obtain ⟨hne, htoks, _⟩ := hg
  rcases sv with _ | ⟨p, rest⟩
  · exact absurd rfl hne
  have htok : tokenize (render (p :: rest)) = (p :: rest).map Prod.fst := by
    refine tokenize_joinSp ?_
    intro t ht
    obtain ⟨q, hq, rfl⟩ := List.mem_map.mp ht
    exact ⟨(htoks q hq).1.1, (htoks q hq).1.2.1⟩
  have hhash : startsHash p.1 = false :=
    startsHash_false_of_kept (htoks p (by simp)).1.2.2.1
  have hgt' : lastIsGt p.1 = false := by simpa using hgt
  unfold candidate
  rw [htok]
  simp only [List.map_cons, hhash, Bool.false_eq_true, if_false, hgt']
  have hsurv : survivors nosync base (p.1 :: rest.map Prod.fst) =
      (p.1 :: rest.map Prod.fst).map fun t => (t, parseId t) := by
    refine survivors_all ?_
    intro t ht
    rcases List.mem_cons.mp ht with rfl | hmm
    · have := htoks p (by simp)
      exact ⟨this.1.2.2.1, this.1.2.2.2⟩
    · obtain ⟨q, hq, rfl⟩ := List.mem_map.mp hmm
      have := htoks q (List.mem_cons_of_mem _ hq)
      exact ⟨this.1.2.2.1, this.1.2.2.2⟩
  rw [hsurv]
  congr 1
  have hid : ∀ q ∈ p :: rest, (q.1, parseId q.1) = q := by
    intro q hq
    have := (htoks q hq).2
    rw [← this]
  have : ((p :: rest).map Prod.fst).map (fun t => (t, parseId t)) =
      (p :: rest).map fun q => (q.1, parseId q.1) := by
    rw [List.map_map]
    rfl
  rw [show (p.1 :: rest.map Prod.fst) = (p :: rest).map Prod.fst from rfl, this]
  calc (p :: rest).map (fun q => (q.1, parseId q.1))
      = (p :: rest).map id := List.map_congr_left hid
    _ = p :: rest := List.map_id _

/-- Replay of a list of previously produced output lines: when every line is
the rendering of a good survivor list whose first token does not end in the
label character, processing them appends them verbatim to the output. -/
theorem rerun_lines {H : AggHash → Nat} {nosync : Bool} {base : List Nat}
    {cmin cmax : Nat} (svs : List (List (List Char × Nat)))
    (hgood : ∀ sv ∈ svs, GoodSv nosync base cmin cmax sv)
    (hnd : (svs.map svFp).Nodup)
    (hgt : ∀ sv ∈ svs, lastIsGt (sv.headD ([], 0)).1 = false)
    {st : MergeState} (hns : st.nosync = nosync) (hnb : st.nodebase = base)
    (hwf : StWF st.chashes H)
    (hfresh : ∀ sv ∈ svs, svFp sv ∉ retained st.chashes) :
    ((svs.map render).foldl (processLine H cmin cmax) st).output =
      st.output ++ svs.map render := by
  induction svs generalizing st with
  | nil => simp
  | cons sv rest ih =>
    have hg := hgood sv (by simp)
    have hc : candidate st.nosync st.nodebase (render sv) = some sv := by
      rw [hns, hnb]
      exact candidate_render hg (hgt sv (by simp))
    have hwrite := processLine_of_write hwf hc hg.1 hg.2.2 (hfresh sv (by simp))
    simp only [List.map_cons, List.foldl_cons, hwrite]
    set st2 : MergeState :=
      { st with
        nodebase := if st.nosync then st.nodebase
          else insAll st.nodebase (sv.map Prod.snd)
        chashes := updBucket st.chashes (H (svFp sv)) (svFp sv)
        output := st.output ++ [render sv] } with hst2
    have hns2 : st2.nosync = nosync := hns
    have hnb2 : st2.nodebase = base := by
      rw [hst2]
      by_cases hsy : st.nosync = true
      · simpa [hsy] using hnb
      · simp only [hsy, Bool.false_eq_true, if_false]
        rw [hnb]
        refine insAll_eq_self ?_
        intro x hx
        obtain ⟨q, hq, rfl⟩ := List.mem_map.mp hx
        have hq2 := hg.2.1 q hq
        rcases hq2.1.2.2.2 with hcon | hmem
        · rw [hns] at hsy
          rw [hcon] at hsy
          exact absurd rfl hsy
        · rw [hq2.2]
          exact hmem
    have hwf2 : StWF st2.chashes H := StWF_updBucket hwf (hfresh sv (by simp))
    have hfresh2 : ∀ sv2 ∈ rest, svFp sv2 ∉ retained st2.chashes := by
      intro sv2 hsv2 hmem
      rcases mem_retained_updBucket.mp hmem with hmm | hmm
      · exact hfresh sv2 (List.mem_cons_of_mem _ hsv2) hmm
      · simp only [List.map_cons, List.nodup_cons] at hnd
        exact hnd.1 (hmm ▸ List.mem_map.mpr ⟨sv2, hsv2, rfl⟩)
    have := ih (fun s hs => hgood s (List.mem_cons_of_mem _ hs))
      (by simpa using hnd.of_cons) (fun s hs => hgt s (List.mem_cons_of_mem _ hs))
      hns2 hnb2 hwf2 hfresh2
    rw [this, hst2]
    simp

/-! Claim theorems. -/

/-- Claim C1, counterexample: the clusters `1 4 6 7` and `2 3 5 8` have
distinct node-id sets, yet their full (count, sum, sumSquares) tuples are
equal — hence their digests coincide under any digest derived from the three
fields — and `mergeCollections` writes only the first of them, refuting the
claim that distinct node sets with coinciding digests are always both
retained. -/
theorem C1_counterexample :
    lineIds true [] "1 4 6 7".data = [1, 4, 6, 7] ∧
    lineIds true [] "2 3 5 8".data = [2, 3, 5, 8] ∧
    ([1, 4, 6, 7] : List Nat).toFinset ≠ ([2, 3, 5, 8] : List Nat).toFinset ∧
    aggOf [1, 4, 6, 7] = aggOf [2, 3, 5, 8] ∧
    hashModel (aggOf [1, 4, 6, 7]) = hashModel (aggOf [2, 3, 5, 8]) ∧
    (mergeCollections hashModel [] [["1 4 6 7".data, "2 3 5 8".data]] 0 0).output
      = ["1 4 6 7".data] :=
  ⟨by decide, by decide, by decide, by decide, by decide, by decide⟩

/-- Claim C1, amended: a candidate cluster passing the size filter is written
iff its fingerprint differs, under the full (count, sum, sumSquares) tuple
comparison, from every previously retained fingerprint, and it is discarded
iff some previously retained fingerprint equals it under that comparison —
for every digest function `H`, so digest equality alone never discards a
cluster; but clusters whose full tuples collide (hence whose digests also
coincide) are deduplicated even when their node-id sets are distinct. -/
theorem C1_dedup_full_tuple (H : AggHash → Nat) (cmin cmax : Nat)
    (st : MergeState) (line : List Char) (sv : List (List Char × Nat))
    (hwf : StWF st.chashes H)
    (hc : candidate st.nosync st.nodebase line = some sv) (hsv : sv ≠ [])
    (hsz : sizeOk cmin cmax sv.length = true) :
    ((processLine H cmin cmax st line).output = st.output ++ [render sv] ↔
      svFp sv ∉ retained st.chashes) ∧
    ((processLine H cmin cmax st line).output = st.output ↔
      svFp sv ∈ retained st.chashes) := by
  by_cases hdup : svFp sv ∈ retained st.chashes
  · rw [processLine_of_dup hwf hc hsv hsz hdup]
    refine ⟨⟨fun hout => ?_, fun h => absurd hdup h⟩, by simp [hdup]⟩
    have := congrArg List.length hout
    simp at this
  · rw [processLine_of_write hwf hc hsv hsz hdup]
    refine ⟨by simp [hdup], ⟨fun hout => ?_, fun h => absurd h hdup⟩⟩
    have := congrArg List.length hout
    simp at this

/-- Witness for C1_dedup_full_tuple at a concrete fresh cluster. -/
theorem C1_dedup_full_tuple_witness :
    (processLine hashModel 0 0 (initState []) "1 4 6 7".data).output =
      [] ++ [render [(['1'], 1), (['4'], 4), (['6'], 6), (['7'], 7)]] :=
  (C1_dedup_full_tuple hashModel 0 0 (initState []) "1 4 6 7".data
    [(['1'], 1), (['4'], 4), (['6'], 6), (['7'], 7)]
    (by constructor <;> simp [initState])
    (by decide) (by decide) (by decide)).1.mpr (by decide)

/-- Claim C2, counterexample: the lines `1 1` and `1` have identical node-id
sets (both are the set containing only id 1), yet their fingerprint tuples
differ (counts 2 versus 1) and `mergeCollections` writes both lines, refuting
the claim that identical node-id sets always yield identical fingerprints
with only the first line retained. -/
theorem C2_counterexample :
    lineIds true [] "1 1".data = [1, 1] ∧
    lineIds true [] "1".data = [1] ∧
    ([1, 1] : List Nat).toFinset = ([1] : List Nat).toFinset ∧
    aggOf [1, 1] ≠ aggOf [1] ∧
    (mergeCollections hashModel [] [["1 1".data, "1".data]] 0 0).output
      = ["1 1".data, "1".data] :=
  ⟨by decide, by decide, by decide, by decide, by decide⟩

/-- Claim C2, amended: two input lines whose surviving parsed id lists are
permutations of each other (identical multisets, in particular reorderings
such as `3 1 2` and `2 3 1`) produce equal fingerprint tuples, and
`mergeCollections` writes only the first of the two lines — for every digest
function, since equal tuples give equal digests. -/
theorem C2_perm_dedup (H : AggHash → Nat) (fbase : List (List Char))
    (cmin cmax : Nat) (l1 l2 : List Char) (sv1 sv2 : List (List Char × Nat))
    (hc1 : candidate (loadNodes fbase 0 0).isEmpty (loadNodes fbase 0 0) l1 = some sv1)
    (hc2 : candidate (loadNodes fbase 0 0).isEmpty (loadNodes fbase 0 0) l2 = some sv2)
    (hperm : (sv1.map Prod.snd).Perm (sv2.map Prod.snd))
    (hsv : sv1 ≠ []) (hsz : sizeOk cmin cmax sv1.length = true) :
    svFp sv1 = svFp sv2 ∧
    (mergeCollections H fbase [[l1, l2]] cmin cmax).output = [render sv1] := by
  have hfp : svFp sv1 = svFp sv2 := aggOf_perm hperm
  refine ⟨hfp, ?_⟩
  have h0 := RunInv_initState H fbase cmin cmax
  have hwf0 : StWF (initState fbase).chashes H := h0.2.2.1
  have hc1' : candidate (initState fbase).nosync (initState fbase).nodebase l1
      = some sv1 := hc1
  have hfresh1 : svFp sv1 ∉ retained (initState fbase).chashes := by
    intro hmem
    simp [initState, retained] at hmem
  have hw1 := processLine_of_write hwf0 hc1' hsv hsz hfresh1
  have h1 := @RunInv_processLine H ((loadNodes fbase 0 0).isEmpty) (loadNodes fbase 0 0) cmin cmax (initState fbase) l1 h0
  obtain ⟨hns1, hnb1, hwf1, _⟩ := h1
  have hc2' : candidate (processLine H cmin cmax (initState fbase) l1).nosync
      (processLine H cmin cmax (initState fbase) l1).nodebase l2 = some sv2 := by
    rw [hns1, hnb1]
    exact hc2
  have hlen12 : sv2.length = sv1.length := by
    have := hperm.length_eq
    simp only [List.length_map] at this
    exact this.symm
  have hsv2 : sv2 ≠ [] := by
    intro h
    rw [h] at hlen12
    rcases sv1 with _ | _
    · exact hsv rfl
    · simp at hlen12
  have hsz2 : sizeOk cmin cmax sv2.length = true := by rw [hlen12]; exact hsz
  have hdup2 : svFp sv2 ∈ retained (processLine H cmin cmax (initState fbase) l1).chashes := by
    rw [hw1, ← hfp]
    exact mem_retained_updBucket.mpr (Or.inr rfl)
  have hd2 := processLine_of_dup hwf1 hc2' hsv2 hsz2 hdup2
  show ((([l1, l2]).foldl (processLine H cmin cmax) (initState fbase))).output = _
  simp only [List.foldl_cons, List.foldl_nil]
  rw [hd2]
  show (processLine H cmin cmax (initState fbase) l1).output = _
  rw [hw1]
  simp [initState]

/-- Witness for C2_perm_dedup: the permuted lines `3 1 2` and `2 3 1`. -/
theorem C2_perm_dedup_witness :
    svFp [(['3'], 3), (['1'], 1), (['2'], 2)] =
      svFp [(['2'], 2), (['3'], 3), (['1'], 1)] ∧
    (mergeCollections hashModel [] [["3 1 2".data, "2 3 1".data]] 0 0).output =
      [render [(['3'], 3), (['1'], 1), (['2'], 2)]] :=
  C2_perm_dedup hashModel [] 0 0 "3 1 2".data "2 3 1".data
    [(['3'], 3), (['1'], 1), (['2'], 2)] [(['2'], 2), (['3'], 3), (['1'], 1)]
    (by decide) (by decide) (by decide) (by decide) (by decide)

/-- Claim C3: the size filter of `mergeCollections`, `extractBase` and
`loadNodes` passes a cluster of surviving size `s` iff `cmin ≤ s` and
(`cmax = 0` or `s ≤ cmax`); with `minSize = 2`, `maxSize = 4` the clusters of
size 1 and 5 are excluded end to end while those of size exactly 2 and
exactly 4 are retained, in merge, extract-base and node-base loading alike. -/
theorem C3_size_filter :
    (∀ cmin cmax s : Nat,
      sizeOk cmin cmax s = true ↔ (cmin ≤ s ∧ (cmax = 0 ∨ s ≤ cmax))) ∧
    (mergeCollections hashModel []
        [["9".data, "1 2".data, "3 4 5 6".data, "5 6 7 8 9".data]] 2 4).output
      = ["1 2".data, "3 4 5 6".data] ∧
    extractBase [["9".data, "1 2".data, "3 4 5 6".data, "5 6 7 8 9".data]] 2 4
      = [1, 2, 3, 4, 5, 6] ∧
    loadNodes ["9".data, "1 2".data, "3 4 5 6".data, "5 6 7 8 9".data] 2 4
      = [1, 2, 3, 4, 5, 6] := by
  refine ⟨?_, by decide, by decide, by decide⟩
  intro cmin cmax s
  simp [sizeOk]

/-- Claim C4: with the external node base {1, 2, 3}, the input cluster
`1 2 4 5` is written as the filtered cluster `1 2`; every survivor of the
base filter has its id in the base (ids outside it are dropped before the
fingerprint is formed); and a line whose cluster becomes empty after the base
filter changes nothing but the filtered-cluster counter — no output line, no
fingerprint, no node-base change, hence no effect on the header counts. -/
theorem C4_base_sync :
    ((mergeCollections hashModel ["1 2 3".data] [["1 2 4 5".data]] 0 0).output
      = ["1 2".data]) ∧
    (∀ (base : List Nat) (toks : List (List Char)) (p : List Char × Nat),
      p ∈ survivors false base toks → p.2 ∈ base) ∧
    (∀ (H : AggHash → Nat) (cmin cmax : Nat) (st : MergeState) (line : List Char),
      candidate st.nosync st.nodebase line = some [] →
      processLine H cmin cmax st line = { st with cfltnum := st.cfltnum + 1 }) := by
  refine ⟨by decide, ?_, ?_⟩
  · intro base toks p hp
    exact survivors_base hp
  · intro H cmin cmax st line hc
    exact processLine_of_empty hc

/-- Witness for C4_base_sync at the base {1, 2, 3}: the survivor (token `1`,
id 1) lies in the base, and the line `4 5` (emptied by the filter) only
increments the filtered-cluster counter. -/
theorem C4_base_sync_witness :
    ((['1'], 1) : List Char × Nat).2 ∈ ([1, 2, 3] : List Nat) ∧
    processLine hashModel 0 0 (initState ["1 2 3".data]) "4 5".data
      = { initState ["1 2 3".data] with
          cfltnum := (initState ["1 2 3".data]).cfltnum + 1 } :=
  ⟨C4_base_sync.2.1 [1, 2, 3] [['1'], ['4'], ['5']] (['1'], 1) (by decide),
   C4_base_sync.2.2 hashModel 0 0 (initState ["1 2 3".data]) "4 5".data (by decide)⟩

/-- Claim C6, code evaluated at the failing input: `AggHash::add` computes
`id * id` at the 32-bit width of `Id` before accumulating, so adding the
single id 65536 = 2^16 leaves a sum of squares of 0 instead of the exact
2^32 = 4294967296 — the count and the sum of ids are exact, but the sum of
squared ids is not, despite the 64-bit accumulator. -/
theorem C6_overflow :
    (AggHash.init.add 65536).m_size = 1 ∧
    (AggHash.init.add 65536).m_idsum = 65536 ∧
    (AggHash.init.add 65536).m_id2sum = 0 ∧
    65536 * 65536 = 4294967296 ∧
    (AggHash.init.add 65536).m_id2sum ≠ 65536 * 65536 :=
  ⟨by decide, by decide, by decide, by decide, by decide⟩

theorem firstTok_render {nosync : Bool} {base : List Nat} {cmin cmax : Nat}
    {sv : List (List Char × Nat)} (hg : GoodSv nosync base cmin cmax sv) :
    firstTok (render sv) = (sv.headD ([], 0)).1 := by
  rcases sv with _ | ⟨p, rest⟩
  · exact absurd rfl hg.1
  have htok : tokenize (render (p :: rest)) = (p :: rest).map Prod.fst := by
    refine tokenize_joinSp ?_
    intro t ht
    obtain ⟨q, hq, rfl⟩ := List.mem_map.mp ht
    exact ⟨(hg.2.1 q hq).1.1, (hg.2.1 q hq).1.2.1⟩
  simp [firstTok, htok]

/-- Claim C5, counterexample: merging the single-line collection
`c1> 12> 3` retains the line `12> 3` (the label `c1>` is stripped, the token
`12>` is kept as a member since it parses to 12); re-merging that output with
the same filters re-parses `12>` as a cluster label because it is now the
first token and ends in the label character, so the second run outputs `3` —
the cluster set changes, refuting idempotence. -/
theorem C5_counterexample :
    (mergeCollections hashModel [] [["c1> 12> 3".data]] 0 0).output
      = ["12> 3".data] ∧
    (mergeCollections hashModel []
        [(mergeCollections hashModel [] [["c1> 12> 3".data]] 0 0).output]
        0 0).output = ["3".data] ∧
    ("3".data : List Char) ≠ "12> 3".data :=
  ⟨by decide, by decide, by decide⟩

/-- Claim C5, amended: re-merging the output of a `mergeCollections` run with
the same size and node-base filters reproduces that output exactly, provided
no output line's first token ends in the cluster-label character `>` (such a
token would be re-parsed as a label on the second pass). -/
theorem C5_idempotent_amended (H : AggHash → Nat) (fbase : List (List Char))
    (files : List (List (List Char))) (cmin cmax : Nat)
    (hgt : ∀ l ∈ (mergeCollections H fbase files cmin cmax).output,
      lastIsGt (firstTok l) = false) :
    (mergeCollections H fbase
        [(mergeCollections H fbase files cmin cmax).output] cmin cmax).output =
      (mergeCollections H fbase files cmin cmax).output := by
  obtain ⟨hns, hnb, hwf, svs, hout, hgood, hnd, hret, hlen⟩ :=
    RunInv_merge H fbase files cmin cmax
  have hrun : mergeCollections H fbase
      [(mergeCollections H fbase files cmin cmax).output] cmin cmax =
      ((mergeCollections H fbase files cmin cmax).output).foldl
        (processLine H cmin cmax) (initState fbase) := rfl
  rw [hrun, hout]
  have hgt2 : ∀ sv ∈ svs, lastIsGt (sv.headD ([], 0)).1 = false := by
    intro sv hsv
    have hmem : render sv ∈ (mergeCollections H fbase files cmin cmax).output := by
      rw [hout]
      exact List.mem_map.mpr ⟨sv, hsv, rfl⟩
    have := hgt (render sv) hmem
    rwa [firstTok_render (hgood sv hsv)] at this
  have h0 := RunInv_initState H fbase cmin cmax
  have := @rerun_lines H ((loadNodes fbase 0 0).isEmpty) (loadNodes fbase 0 0) cmin cmax svs hgood hnd hgt2 (initState fbase) rfl rfl h0.2.2.1
    (by intro sv hsv hmem; simp [initState, retained] at hmem)
  rw [this]
  simp [initState]

/-- Witness for C5_idempotent_amended on a plain numeric collection. -/
theorem C5_idempotent_amended_witness :
    (mergeCollections hashModel []
        [(mergeCollections hashModel [] [["1 2".data]] 0 0).output] 0 0).output =
      (mergeCollections hashModel [] [["1 2".data]] 0 0).output :=
  C5_idempotent_amended hashModel [] [["1 2".data]] 0 0 (by decide)

theorem nodup_all_eq_length {l : List AggHash} (hnd : l.Nodup) (hne : l ≠ [])
    (hall : ∀ a ∈ l, ∀ b ∈ l, a = b) : l.length = 1 := by
  rcases l with _ | ⟨a, rest⟩
  · exact absurd rfl hne
  rcases rest with _ | ⟨b, rest⟩
  · rfl
  · exfalso
    have hab : a = b := hall a (by simp) b (by simp)
    simp only [List.nodup_cons, List.mem_cons] at hnd
    exact hnd.1 (Or.inl hab)

theorem length_eq_retained_of_inj {m : List (Nat × List AggHash)}
    {H : AggHash → Nat} (hwf : StWF m H)
    (hinj : ∀ a ∈ retained m, ∀ b ∈ retained m, H a = H b → a = b) :
    m.length = (retained m).length := by
  induction m with
  | nil => rfl
  | cons p rest ih =>
    obtain ⟨hnd, hb⟩ := hwf
    have hp := hb p (by simp)
    have hrest : StWF rest H := by
      refine ⟨?_, fun q hq => hb q (List.mem_cons_of_mem _ hq)⟩
      simp only [List.map_cons, List.nodup_cons] at hnd
      exact hnd.2
    have hinj2 : ∀ a ∈ retained rest, ∀ b ∈ retained rest, H a = H b → a = b := by
      intro a ha b hbm hH
      refine hinj a ?_ b ?_ hH <;>
        · rw [retained_cons]
          exact List.mem_append.mpr (Or.inr (by assumption))
    have hplen : p.2.length = 1 := by
      refine nodup_all_eq_length hp.2.2 hp.2.1 ?_
      intro a ha b hbm
      refine hinj a ?_ b ?_ ?_
      · rw [retained_cons]
        exact List.mem_append.mpr (Or.inl ha)
      · rw [retained_cons]
        exact List.mem_append.mpr (Or.inl hbm)
      · rw [hp.1 a ha, hp.1 b hbm]
    rw [retained_cons]
    simp only [List.length_cons, List.length_append, hplen, ih hrest hinj2]
    omega

/-- Claim C7, counterexample: a no-base run over three distinct clusters
spanning seven distinct node ids patches a header of 3 clusters but 0 nodes —
the node-base set is inserted into only in sync mode (`if(!nosync)`), so
without an external base the nodes field is 0, not 7. -/
theorem C7_counterexample :
    (mergeCollections hashModel []
        [["1 2 3".data, "4 5 6".data, "7 1 2".data]] 0 0).output
      = ["1 2 3".data, "4 5 6".data, "7 1 2".data] ∧
    headerClusters (mergeCollections hashModel []
        [["1 2 3".data, "4 5 6".data, "7 1 2".data]] 0 0) = 3 ∧
    (extractBase [[["1 2 3".data, "4 5 6".data, "7 1 2".data]].head!] 0 0).length
      = 7 ∧
    headerNodes (mergeCollections hashModel []
        [["1 2 3".data, "4 5 6".data, "7 1 2".data]] 0 0) = 0 ∧
    (0 : Nat) ≠ 7 :=
  ⟨by decide, by decide, by decide, by decide, by decide⟩

/-- Claim C7, amended: the patched clusters field equals `chashes.size()`,
which equals the number of retained output clusters whenever the digest is
collision-free on the retained fingerprints, and the patched nodes field
equals the size of the loaded node base — which stays exactly the loaded
base for the whole run (0 when no base is supplied); with a supplied base of
exactly the seven spanned ids, the patched fields are 3 and 7. -/
theorem C7_header_amended (H : AggHash → Nat) (fbase : List (List Char))
    (files : List (List (List Char))) (cmin cmax : Nat)
    (hinj : ∀ a ∈ retained (mergeCollections H fbase files cmin cmax).chashes,
      ∀ b ∈ retained (mergeCollections H fbase files cmin cmax).chashes,
      H a = H b → a = b) :
    headerClusters (mergeCollections H fbase files cmin cmax) =
      (mergeCollections H fbase files cmin cmax).output.length ∧
    headerNodes (mergeCollections H fbase files cmin cmax) =
      (loadNodes fbase 0 0).length ∧
    headerClusters (mergeCollections hashModel ["1 2 3 4 5 6 7".data]
      [["1 2 3".data, "4 5 6".data, "7 1 2".data]] 0 0) = 3 ∧
    headerNodes (mergeCollections hashModel ["1 2 3 4 5 6 7".data]
      [["1 2 3".data, "4 5 6".data, "7 1 2".data]] 0 0) = 7 := by
  obtain ⟨hns, hnb, hwf, svs, hout, hgood, hnd, hret, hlen⟩ :=
    RunInv_merge H fbase files cmin cmax
  refine ⟨?_, ?_, by decide, by decide⟩
  · unfold headerClusters
    rw [length_eq_retained_of_inj hwf hinj, hlen, hout, List.length_map]
  · unfold headerNodes
    rw [hnb]

/-- Witness for C7_header_amended at the seven-id sync scenario. -/
theorem C7_header_amended_witness :
    headerClusters (mergeCollections hashModel ["1 2 3 4 5 6 7".data]
        [["1 2 3".data, "4 5 6".data, "7 1 2".data]] 0 0) =
      (mergeCollections hashModel ["1 2 3 4 5 6 7".data]
        [["1 2 3".data, "4 5 6".data, "7 1 2".data]] 0 0).output.length :=
  (C7_header_amended hashModel ["1 2 3 4 5 6 7".data]
    [["1 2 3".data, "4 5 6".data, "7 1 2".data]] 0 0 (by decide)).1

theorem extractLine_mem {cmin cmax : Nat} {nb : List Nat} {line : List Char}
    {x : Nat} :
    x ∈ extractLine cmin cmax nb line ↔ x ∈ nb ∨ x ∈ lineAccepted cmin cmax line := by
  unfold extractLine lineAccepted
  rcases hc : candidate true [] line with _ | sv
  · simp
  · by_cases hsz : sizeOk cmin cmax sv.length = true
    · simp [hsz, mem_insAll]
    · simp [hsz]

theorem extractLine_nodup {cmin cmax : Nat} {nb : List Nat} {line : List Char}
    (h : nb.Nodup) : (extractLine cmin cmax nb line).Nodup := by
  unfold extractLine
  rcases candidate true [] line with _ | sv
  · exact h
  · by_cases hsz : sizeOk cmin cmax sv.length = true
    · simpa [hsz] using insAll_nodup h
    · simpa [hsz] using h

theorem extract_file_mem (cmin cmax : Nat) (lines : List (List Char)) :
    ∀ (nb : List Nat) (x : Nat),
      x ∈ lines.foldl (extractLine cmin cmax) nb ↔
        x ∈ nb ∨ x ∈ lines.flatMap (lineAccepted cmin cmax) := by
  induction lines with
  | nil => simp
  | cons l ls ih =>
    intro nb x
    simp only [List.foldl_cons, List.flatMap_cons, List.mem_append]
    rw [ih, extractLine_mem]
    tauto

theorem extract_file_nodup (cmin cmax : Nat) (lines : List (List Char)) :
    ∀ nb : List Nat, nb.Nodup → (lines.foldl (extractLine cmin cmax) nb).Nodup := by
  induction lines with
  | nil => exact fun nb h => h
  | cons l ls ih => exact fun nb h => ih _ (extractLine_nodup h)

theorem extract_run_nodup (cmin cmax : Nat) (files : List (List (List Char))) :
    ∀ nb : List Nat, nb.Nodup →
      (files.foldl (fun nb file => file.foldl (extractLine cmin cmax) nb) nb).Nodup := by
  induction files with
  | nil => exact fun nb h => h
  | cons f fs ih => exact fun nb h => ih _ (extract_file_nodup cmin cmax f nb h)

theorem extract_run_mem (cmin cmax : Nat) (files : List (List (List Char))) :
    ∀ (nb : List Nat) (x : Nat),
      x ∈ files.foldl (fun nb file => file.foldl (extractLine cmin cmax) nb) nb ↔
        x ∈ nb ∨ x ∈ files.flatMap fun file => file.flatMap (lineAccepted cmin cmax) := by
  induction files with
  | nil => simp
  | cons f fs ih =>
    intro nb x
    simp only [List.foldl_cons, List.flatMap_cons, List.mem_append]
    rw [ih, extract_file_mem]
    tauto

/-- Claim C8: `extractBase` accumulates a duplicate-free node base containing
exactly the surviving ids of the size-filtered input clusters (each id listed
exactly once in its single output cluster line), and the patched header
declares 1 cluster and the accumulated node count; for inputs covering
{5, 6, 7} and {7, 8} the single output cluster is {5, 6, 7, 8} and the header
declares `Clusters: 1, Nodes: 4`. -/
theorem C8_extract :
    (∀ (files : List (List (List Char))) (cmin cmax : Nat),
      (extractBase files cmin cmax).Nodup) ∧
    (∀ (files : List (List (List Char))) (cmin cmax : Nat) (x : Nat),
      x ∈ extractBase files cmin cmax ↔ x ∈ extractAccepted files cmin cmax) ∧
    extractBase [["5 6 7".data], ["7 8".data]] 0 0 = [5, 6, 7, 8] ∧
    extractHeader [["5 6 7".data], ["7 8".data]] 0 0 = (1, 4) := by
  refine ⟨?_, ?_, by decide, by decide⟩
  · intro files cmin cmax
    exact extract_run_nodup cmin cmax files [] (by simp)
  · intro files cmin cmax x
    unfold extractBase extractAccepted
    rw [extract_run_mem]
    simp

/-- Claim C9, counterexample: the token `-1` fails to parse as a non-negative
decimal integer, yet it is not skipped: `strtoul` negates modulo 2^64 and the
truncation to `Id` yields 4294967295, so the token is written to the output
line and contributes that id to the fingerprint (idsum 7 + 4294967295), where
the claim says it should contribute nothing. -/
theorem C9_counterexample :
    parseId "-1".data = 4294967295 ∧
    skipTok "-1".data = false ∧
    (mergeCollections hashModel [] [["7 -1".data]] 0 0).output = ["7 -1".data] ∧
    retained (mergeCollections hashModel [] [["7 -1".data]] 0 0).chashes
      = [⟨2, 4294967302, 50⟩] :=
  ⟨by decide, by decide, by decide, by decide⟩

/-- Claim C9, amended: a token is skipped iff its parsed id (the `strtoul`
value truncated to `Id`) is 0 and its first character is not `0`; such a
skipped token contributes nothing to the survivors, the fingerprint, or the
output line (as `1 abc 2` merging to `1 2` shows), but a token with a
leading minus sign is retained with its id wrapped modulo 2^32. -/
theorem C9_skip_amended (nosync : Bool) (base : List Nat)
    (pre post : List (List Char)) (t : List Char) (hs : skipTok t = true) :
    survivors nosync base (pre ++ t :: post) = survivors nosync base (pre ++ post) ∧
    (mergeCollections hashModel [] [["1 abc 2".data]] 0 0).output = ["1 2".data] :=
  ⟨survivors_skip_mid hs, by decide⟩

/-- Witness for C9_skip_amended at the skipped token `abc`. -/
theorem C9_skip_amended_witness :
    survivors true [] ([['1']] ++ "abc".data :: [['2']]) =
      survivors true [] ([['1']] ++ [['2']]) ∧
    (mergeCollections hashModel [] [["1 abc 2".data]] 0 0).output = ["1 2".data] :=
  C9_skip_amended true [] [['1']] [['2']] "abc".data (by decide)

/-- Claim C10: the fingerprint accumulates over the surviving tokens with
intra-line repetitions counted separately — its count is the token count,
its sums range over the token list with multiplicity — and the size filter
tests that same token count: the line `1 1 2` measures size 3 (passing a
minSize of 3 that the two distinct ids alone would fail), its repeated id
enters the fingerprint twice (tuple (3, 4, 6)), and the duplicated token
text is written twice in the retained output line; `extractBase` applies the
same multiplicity-counting filter. -/
theorem C10_multiplicity :
    (∀ ids : List Nat,
      (aggOf ids).m_size = ids.length % U64 ∧
      (aggOf ids).m_idsum = ids.sum % U64 ∧
      (aggOf ids).m_id2sum = (ids.map fun i => i * i % U32).sum % U64) ∧
    lineIds true [] "1 1 2".data = [1, 1, 2] ∧
    (mergeCollections hashModel [] [["1 1 2".data]] 3 0).output = ["1 1 2".data] ∧
    retained (mergeCollections hashModel [] [["1 1 2".data]] 3 0).chashes
      = [⟨3, 4, 6⟩] ∧
    (mergeCollections hashModel [] [["1 2".data]] 3 0).output = [] ∧
    extractBase [[["1 1 2".data]].head!] 3 0 = [1, 2] := by
  refine ⟨?_, by decide, by decide, by decide, by decide, by decide⟩
  intro ids
  rw [aggOf_spec]
  exact ⟨rfl, rfl, rfl⟩
